import Mathlib

/-!
Verification development for the Nuke auto-saver scripts
(`versionUp.py` and `versionUp12.py`).

The scripts are shallowly embedded here:

* Strings (Python `str`) are modelled as `List Char`, restricted to the
  ASCII behaviour of the relevant Python primitives: `str.lower` is the
  ASCII case map, the regex class `\d` and `int(...)` work over the ASCII
  digits `'0'..'9'`, and `"{:03d}".format` renders a natural number in
  decimal padded with `'0'` to width at least 3.
* `os.path.dirname` / `basename` / `join` / `splitext` follow the POSIX
  (`posixpath`) implementations.
* The regex search `re.search(r'(.+?)(\.v)(\d+)(\.nk)$', base, re.IGNORECASE)`
  is embedded as a scanner that returns the leftmost match, with the lazy
  `.+?` (which does not cross `'\n'`) taking the shortest name group, the
  digit group running to the position of the final `.nk`, and `$` also
  matching just before a trailing newline.
* The stateful methods of `AutoSaverCallbacks` become explicit
  state-passing functions that also return the list of host side effects
  (save, save-as, timer cancel, timer start) they perform; `print` logging
  is not observable and is not modelled.  `time.time()` readings are
  modelled by a `now : Nat` argument (seconds).
-/

/-! ### ASCII character helpers -/

/-- ASCII decimal digit test: the embedding of the regex class `\d` and of
the digit set accepted by `int(...)`, restricted to ASCII. -/
def isDig (c : Char) : Bool :=
  c = '0' ∨ c = '1' ∨ c = '2' ∨ c = '3' ∨ c = '4' ∨
  c = '5' ∨ c = '6' ∨ c = '7' ∨ c = '8' ∨ c = '9'

/-- ASCII lower-casing of one character: the embedding of Python
`str.lower` (restricted to ASCII input). -/
def lowerChar (c : Char) : Char :=
  match c with
  | 'A' => 'a' | 'B' => 'b' | 'C' => 'c' | 'D' => 'd' | 'E' => 'e'
  | 'F' => 'f' | 'G' => 'g' | 'H' => 'h' | 'I' => 'i' | 'J' => 'j'
  | 'K' => 'k' | 'L' => 'l' | 'M' => 'm' | 'N' => 'n' | 'O' => 'o'
  | 'P' => 'p' | 'Q' => 'q' | 'R' => 'r' | 'S' => 's' | 'T' => 't'
  | 'U' => 'u' | 'V' => 'v' | 'W' => 'w' | 'X' => 'x' | 'Y' => 'y'
  | 'Z' => 'z'
  | c => c

/-- Python `str.lower` on a whole string. -/
def lowerStr (l : List Char) : List Char := l.map lowerChar

/-- The numeric value of an ASCII digit character. -/
def digitVal (c : Char) : Nat := c.toNat - 48

theorem lowerChar_of_isDig {c : Char} (h : isDig c = true) : lowerChar c = c := by
  simp only [isDig, decide_eq_true_eq] at h
  rcases h with rfl | rfl | rfl | rfl | rfl | rfl | rfl | rfl | rfl | rfl <;> rfl

theorem isDig_ne_slash {c : Char} (h : isDig c = true) : c ≠ '/' := by
  simp only [isDig, decide_eq_true_eq] at h
  rcases h with rfl | rfl | rfl | rfl | rfl | rfl | rfl | rfl | rfl | rfl <;> decide

theorem isDig_ne_dot {c : Char} (h : isDig c = true) : c ≠ '.' := by
  simp only [isDig, decide_eq_true_eq] at h
  rcases h with rfl | rfl | rfl | rfl | rfl | rfl | rfl | rfl | rfl | rfl <;> decide

theorem lowerChar_eq_slash_iff (c : Char) : lowerChar c = '/' ↔ c = '/' := by
  constructor
  · intro h
    unfold lowerChar at h
    split at h <;> first | exact absurd h (by decide) | exact h
  · rintro rfl; rfl

theorem lowerStr_of_all_isDig {l : List Char} (h : l.all isDig = true) :
    lowerStr l = l := by
  induction l with
  | nil => rfl
  | cons a t ih =>
    simp only [List.all_cons, Bool.and_eq_true] at h
    simp [lowerStr, List.map_cons, lowerChar_of_isDig h.1]
    have := ih h.2
    simpa [lowerStr] using this

/-! ### Decimal rendering and parsing

`parseDigits` embeds Python `int(s)` on a string of ASCII digits, and
`fmt03` embeds the format `"{0:03d}".format(n)` / f-string `{n:03d}` for a
natural number. -/

/-- Fuel-bounded digit production (structural recursion so that concrete
instances evaluate inside the kernel). -/
def natDigitsAux : Nat → Nat → List Char
  | 0, _ => []
  | fuel + 1, n =>
    if n < 10 then [Char.ofNat (48 + n)]
    else natDigitsAux fuel (n / 10) ++ [Char.ofNat (48 + n % 10)]

/-- The decimal digit list of `n` (most significant first), as produced by
Python when formatting a non-negative integer. -/
def natDigits (n : Nat) : List Char := natDigitsAux (n + 1) n

/-- Python `int(...)` on a list of ASCII digit characters. -/
def parseDigits (l : List Char) : Nat :=
  l.foldl (fun a c => 10 * a + digitVal c) 0

/-- Python `"{0:03d}".format n`: decimal digits of `n`, zero padded on the
left to width at least 3. -/
def fmt03 (n : Nat) : List Char :=
  List.replicate (3 - (natDigits n).length) '0' ++ natDigits n

theorem digitVal_ofNat {m : Nat} (h : m < 10) :
    digitVal (Char.ofNat (48 + m)) = m := by
  interval_cases m <;> decide

theorem isDig_ofNat {m : Nat} (h : m < 10) : isDig (Char.ofNat (48 + m)) = true := by
  interval_cases m <;> decide

theorem parseDigits_append_singleton (l : List Char) (c : Char) :
    parseDigits (l ++ [c]) = 10 * parseDigits l + digitVal c := by
  simp [parseDigits, List.foldl_append]

theorem natDigitsAux_spec : ∀ (fuel n : Nat), n < fuel →
    natDigitsAux fuel n ≠ [] ∧ (natDigitsAux fuel n).all isDig = true ∧
      parseDigits (natDigitsAux fuel n) = n := by
  intro fuel
  induction fuel with
  | zero => intro n hn; omega
  | succ fuel ih =>
    intro n hn
    by_cases h : n < 10
    · rw [natDigitsAux, if_pos h]
      exact ⟨by simp, by simp [isDig_ofNat h],
        by simp [parseDigits, digitVal_ofNat h]⟩
    · rw [natDigitsAux, if_neg h]
      have hdiv : n / 10 < n := Nat.div_lt_self (by omega) (by omega)
      obtain ⟨ih1, ih2, ih3⟩ := ih (n / 10) (by omega)
      refine ⟨by simp, ?_, ?_⟩
      · rw [List.all_append]
        simp [ih2, isDig_ofNat (Nat.mod_lt n (y := 10) (by omega))]
      · rw [parseDigits_append_singleton, ih3,
          digitVal_ofNat (Nat.mod_lt n (y := 10) (by omega))]
        omega

theorem natDigits_ne_nil (n : Nat) : natDigits n ≠ [] :=
  (natDigitsAux_spec (n + 1) n (by omega)).1

theorem natDigits_all_isDig (n : Nat) : (natDigits n).all isDig = true :=
  (natDigitsAux_spec (n + 1) n (by omega)).2.1

theorem parseDigits_natDigits (n : Nat) : parseDigits (natDigits n) = n :=
  (natDigitsAux_spec (n + 1) n (by omega)).2.2

theorem parseDigits_replicate_zero_append (k : Nat) (l : List Char) :
    parseDigits (List.replicate k '0' ++ l) = parseDigits l := by
  induction k with
  | zero => simp
  | succ k ih =>
    have : List.replicate (k + 1) '0' ++ l = '0' :: (List.replicate k '0' ++ l) := by
      simp [List.replicate_succ]
    rw [this]
    simpa [parseDigits, digitVal] using ih

theorem parseDigits_fmt03 (n : Nat) : parseDigits (fmt03 n) = n := by
  rw [fmt03, parseDigits_replicate_zero_append, parseDigits_natDigits]

theorem fmt03_all_isDig (n : Nat) : (fmt03 n).all isDig = true := by
  rw [fmt03, List.all_append]
  have h1 : (List.replicate (3 - (natDigits n).length) '0').all isDig = true := by
    rw [List.all_eq_true]
    intro x hx
    rw [List.eq_of_mem_replicate hx]; decide
  simp [h1, natDigits_all_isDig n]

theorem fmt03_ne_nil (n : Nat) : fmt03 n ≠ [] := by
  rw [fmt03]
  intro h
  exact natDigits_ne_nil n (List.append_eq_nil.mp h).2

/-! ### Small list facts used throughout -/

theorem dropWhile_append_of_all {p : Char → Bool} {l₁ : List Char} (l₂ : List Char)
    (h : ∀ x ∈ l₁, p x = true) :
    (l₁ ++ l₂).dropWhile p = l₂.dropWhile p := by
  induction l₁ with
  | nil => rfl
  | cons a t ih =>
    have ha := h a (by simp)
    simp only [List.cons_append, List.dropWhile_cons, ha, if_true]
    exact ih (fun x hx => h x (by simp [hx]))

theorem dropWhile_cons_of_neg {p : Char → Bool} {a : Char} (l : List Char)
    (h : p a = false) : (a :: l).dropWhile p = a :: l := by
  simp [List.dropWhile_cons, h]

theorem takeWhile_append_of_all {p : Char → Bool} {l₁ : List Char} (l₂ : List Char)
    (h : ∀ x ∈ l₁, p x = true) :
    (l₁ ++ l₂).takeWhile p = l₁ ++ l₂.takeWhile p := by
  induction l₁ with
  | nil => rfl
  | cons a t ih =>
    have ha := h a (by simp)
    simp only [List.cons_append, List.takeWhile_cons, ha, if_true]
    rw [ih (fun x hx => h x (by simp [hx]))]

theorem takeWhile_cons_of_neg {p : Char → Bool} {a : Char} (l : List Char)
    (h : p a = false) : (a :: l).takeWhile p = [] := by
  simp [List.takeWhile_cons, h]

theorem takeWhile_eq_self_of_all {p : Char → Bool} {l : List Char}
    (h : ∀ x ∈ l, p x = true) : l.takeWhile p = l := by
  induction l with
  | nil => rfl
  | cons a t ih =>
    simp only [List.takeWhile_cons, h a (by simp), if_true]
    rw [ih (fun x hx => h x (by simp [hx]))]

theorem dropWhile_eq_nil_of_all {p : Char → Bool} {l : List Char}
    (h : ∀ x ∈ l, p x = true) : l.dropWhile p = [] := by
  induction l with
  | nil => rfl
  | cons a t ih =>
    simp only [List.dropWhile_cons, h a (by simp), if_true]
    exact ih (fun x hx => h x (by simp [hx]))

theorem getLast?_append_ne_nil {α : Type} {l₁ l₂ : List α} (h : l₂ ≠ []) :
    (l₁ ++ l₂).getLast? = l₂.getLast? := by
  rw [List.getLast?_append]
  cases l₂ with
  | nil => exact absurd rfl h
  | cons a t => simp [List.getLast?_cons]

theorem mem_append_of_dot_mid (pre tail : List Char) (c : Char) :
    '.' ∈ pre ++ '.' :: c :: tail := by
  simp

theorem all_isDig_false_of_dot {l : List Char} (h : '.' ∈ l) :
    l.all isDig = false := by
  rw [Bool.eq_false_iff]
  intro hall
  rw [List.all_eq_true] at hall
  exact isDig_ne_dot (hall '.' h) rfl

/-! ### POSIX path primitives (`posixpath`)

`os.path.split` finds the last `'/'`; the tail is the basename and the head
keeps its trailing slashes. `dirname` strips the head's trailing slashes
unless the head consists only of slashes.  `join a b` (for `b` without a
leading slash) inserts a `'/'` unless `a` is empty or already ends in one.
`splitext` splits at the last dot, provided some earlier character of the
name is not a dot. -/

/-- `os.path.basename` (POSIX): everything after the last `'/'`. -/
def basename (p : List Char) : List Char :=
  (p.reverse.takeWhile (fun c => !(c = '/' : Bool))).reverse

/-- The head part of `os.path.split` (POSIX): everything up to and
including the last `'/'`. -/
def headPart (p : List Char) : List Char :=
  (p.reverse.dropWhile (fun c => !(c = '/' : Bool))).reverse

/-- `os.path.dirname` (POSIX). -/
def dirname (p : List Char) : List Char :=
  let h := headPart p
  if h ≠ [] ∧ h.any (fun c => !(c = '/' : Bool)) then
    (h.reverse.dropWhile (fun c => (c = '/' : Bool))).reverse
  else h

/-- `os.path.join` (POSIX), for two components. -/
def joinPath (a b : List Char) : List Char :=
  if b.head? = some '/' then b
  else if a = [] ∨ a.getLast? = some '/' then a ++ b
  else a ++ '/' :: b

/-- `os.path.splitext` (POSIX) on a string without separators (it is only
applied to basenames in this code). -/
def splitext (b : List Char) : List Char × List Char :=
  let t := b.reverse.takeWhile (fun c => !(c = '.' : Bool))
  if t.length = b.length then (b, [])
  else
    let pre := b.take (b.length - t.length - 1)
    if pre.any (fun c => !(c = '.' : Bool)) then
      (pre, b.drop (b.length - t.length - 1))
    else (b, [])

theorem headPart_append_basename (p : List Char) : headPart p ++ basename p = p := by
  rw [headPart, basename, ← List.reverse_append,
    List.takeWhile_append_dropWhile, List.reverse_reverse]

theorem basename_no_slash (p : List Char) : '/' ∉ basename p := by
  intro h
  rw [basename, List.mem_reverse] at h
  have := List.mem_takeWhile_imp h
  simp at this

theorem splitext_append (b : List Char) : (splitext b).1 ++ (splitext b).2 = b := by
  rw [splitext]
  by_cases h1 : (b.reverse.takeWhile (fun c => !(c = '.' : Bool))).length = b.length
  · simp [h1]
  · rw [if_neg h1]
    by_cases h2 : (b.take (b.length - (b.reverse.takeWhile
        (fun c => !(c = '.' : Bool))).length - 1)).any (fun c => !(c = '.' : Bool))
    · simp only [h2, if_true]
      exact List.take_append_drop _ b
    · simp [h2]

theorem splitext_mem_left {b : List Char} {x : Char} (h : x ∈ (splitext b).1) : x ∈ b := by
  rw [splitext] at h
  by_cases h1 : (b.reverse.takeWhile (fun c => !(c = '.' : Bool))).length = b.length
  · simp [h1] at h; exact h
  · rw [if_neg h1] at h
    by_cases h2 : (b.take (b.length - (b.reverse.takeWhile
        (fun c => !(c = '.' : Bool))).length - 1)).any (fun c => !(c = '.' : Bool))
    · simp only [h2, if_true] at h
      exact List.mem_of_mem_take h
    · simp [h2] at h; exact h

theorem splitext_mem_right {b : List Char} {x : Char} (h : x ∈ (splitext b).2) : x ∈ b := by
  rw [splitext] at h
  by_cases h1 : (b.reverse.takeWhile (fun c => !(c = '.' : Bool))).length = b.length
  · simp [h1] at h
  · rw [if_neg h1] at h
    by_cases h2 : (b.take (b.length - (b.reverse.takeWhile
        (fun c => !(c = '.' : Bool))).length - 1)).any (fun c => !(c = '.' : Bool))
    · simp only [h2, if_true] at h
      exact List.mem_of_mem_drop h
    · simp [h2] at h

/-! ### The version regex

Embedding of `re.search(r'(.+?)(\.v)(\d+)(\.nk)$', base_name, re.IGNORECASE)`.
A match decomposes the basename as `name ++ ".v" ++ digits ++ ".nk"`
(`v`, `n`, `k` case-insensitive): the `(\.nk)$` group pins the last three
characters, the digit group must run from just after the `.v` to the start
of that extension, and the lazy `(.+?)` makes the engine pick the leftmost
(and then shortest) name group; `.` does not match a newline, so the name
group never crosses one, and `$` also matches just before one trailing
newline. -/

/-- Attempt the `(\.v)(\d+)` split at the current scan position: succeeds
when the whole remaining core is `.v` (case-insensitive `v`) followed by a
non-empty run of digits, and at least one name character was consumed. -/
def checkHere (acc rest : List Char) : Option (List Char × List Char × List Char) :=
  match rest with
  | c0 :: c1 :: rest2 =>
    if c0 = '.' ∧ (c1 = 'v' ∨ c1 = 'V') ∧ acc ≠ [] ∧ rest2 ≠ [] ∧ rest2.all isDig = true
    then some (acc.reverse, [c0, c1], rest2)
    else none
  | _ => none

/-- Left-to-right scan of the core (the basename without the trailing
`.nk`): `acc` holds the (reversed) name characters consumed since the last
newline. Returns the regex groups `(name, ".v" text, digits)`. -/
def scanMatch (acc rest : List Char) : Option (List Char × List Char × List Char) :=
  match rest with
  | [] => none
  | r :: rest' =>
    match checkHere acc (r :: rest') with
    | some res => some res
    | none => scanMatch (if r = '\n' then [] else r :: acc) rest'

/-- Case-insensitive test for the literal extension `.nk`. -/
def extCI (e : List Char) : Bool :=
  match e with
  | [c0, c1, c2] => (c0 = '.' ∧ (c1 = 'n' ∨ c1 = 'N') ∧ (c2 = 'k' ∨ c2 = 'K') : Bool)
  | _ => false

/-- The regex match on a basename whose `$` anchor is the true end of the
string: groups `(name, ".v" text, digits, ".nk" text)`. -/
def matchCore (b : List Char) : Option (List Char × List Char × List Char × List Char) :=
  let e := b.drop (b.length - 3)
  if extCI e = true then
    match scanMatch [] (b.take (b.length - 3)) with
    | some (nm, vt, ds) => some (nm, vt, ds, e)
    | none => none
  else none

/-- The full `re.search`: Python's `$` also matches just before a final
newline, so a basename ending in `'\n'` is matched against the text with
that newline removed (and the newline does not appear in any group). -/
def reMatch (b : List Char) : Option (List Char × List Char × List Char × List Char) :=
  if b.getLast? = some '\n' then matchCore b.dropLast else matchCore b

/-- The new basename computed by `_get_next_version_path`: on a match,
`name ++ vtext ++ format(int(digits)+1, 03d) ++ exttext`; otherwise
`stem ++ ".v001" ++ ext` from `splitext`. -/
def nextBaseName (b : List Char) : List Char :=
  match reMatch b with
  | some (nm, vt, ds, e) => nm ++ vt ++ fmt03 (parseDigits ds + 1) ++ e
  | none => (splitext b).1 ++ ('.' :: 'v' :: '0' :: '0' :: '1' :: []) ++ (splitext b).2

/-- `AutoSaverCallbacks._get_next_version_path` (identical in
`versionUp.py` and `versionUp12.py`): split the path into directory and
basename, compute the next versioned basename, and re-join. -/
def get_next_version_path (script_path : List Char) : List Char :=
  joinPath (dirname script_path) (nextBaseName (basename script_path))

theorem checkHere_some {acc rest : List Char} {res}
    (h : checkHere acc rest = some res) :
    ∃ c rest2, rest = '.' :: c :: rest2 ∧ (c = 'v' ∨ c = 'V') ∧ acc ≠ [] ∧
      rest2 ≠ [] ∧ rest2.all isDig = true ∧ res = (acc.reverse, ['.', c], rest2) := by
  match rest with
  | [] => simp [checkHere] at h
  | [c0] => simp [checkHere] at h
  | c0 :: c1 :: rest2 =>
    rw [checkHere] at h
    by_cases hc : c0 = '.' ∧ (c1 = 'v' ∨ c1 = 'V') ∧ acc ≠ [] ∧ rest2 ≠ [] ∧
        rest2.all isDig = true
    · rw [if_pos hc] at h
      obtain ⟨h1, h2, h3, h4, h5⟩ := hc
      subst h1
      exact ⟨c1, rest2, rfl, h2, h3, h4, h5, (Option.some_inj.mp h).symm⟩
    · rw [if_neg hc] at h
      exact absurd h (by simp)

/-- Soundness of the scanner: a successful scan decomposes its input as
`pre ++ '.' :: c :: ds` with the advertised side conditions, and every
name character comes from the initial accumulator or from `pre`. -/
theorem scanMatch_some {acc rest nm vt ds : List Char}
    (hacc : '\n' ∉ acc)
    (h : scanMatch acc rest = some (nm, vt, ds)) :
    ∃ pre c, rest = pre ++ '.' :: c :: ds ∧ (c = 'v' ∨ c = 'V') ∧ ds ≠ [] ∧
      ds.all isDig = true ∧ vt = ['.', c] ∧ nm ≠ [] ∧ '\n' ∉ nm ∧
      (∀ x ∈ nm, x ∈ acc ∨ x ∈ pre) := by
  induction rest generalizing acc with
  | nil => simp [scanMatch] at h
  | cons r rest' ih =>
    rw [scanMatch] at h
    cases hch : checkHere acc (r :: rest') with
    | some res =>
      rw [hch] at h
      obtain ⟨c, rest2, heq, hc, haccne, hne, hdig, hres⟩ := checkHere_some hch
      subst hres
      obtain ⟨h1, h2, h3⟩ : acc.reverse = nm ∧ ['.', c] = vt ∧ rest2 = ds := by
        simpa [Prod.ext_iff] using h
      subst h1; subst h2; subst h3
      refine ⟨[], c, by simpa using heq, hc, hne, hdig, rfl, by simpa using haccne,
        ?_, ?_⟩
      · rw [List.mem_reverse]; exact hacc
      · intro x hx
        rw [List.mem_reverse] at hx
        exact Or.inl hx
    | none =>
      rw [hch] at h
      have hacc2 : '\n' ∉ (if r = '\n' then [] else r :: acc) := by
        by_cases hr : r = '\n'
        · simp [hr]
        · rw [if_neg hr]
          intro hmem
          rcases List.mem_cons.mp hmem with he | he
          · exact hr he.symm
          · exact hacc he
      obtain ⟨pre, c, heq, hc, hds, hdig, hvt, hnm, hnl, horig⟩ := ih hacc2 h
      refine ⟨r :: pre, c, ?_, hc, hds, hdig, hvt, hnm, hnl, ?_⟩
      · rw [List.cons_append, heq]
      · intro x hx
        rcases horig x hx with hin | hin
        · by_cases hr : r = '\n'
          · rw [if_pos hr] at hin; simp at hin
          · rw [if_neg hr] at hin
            rcases List.mem_cons.mp hin with rfl | hin
            · exact Or.inr (by simp)
            · exact Or.inl hin
        · exact Or.inr (by simp [hin])

/-- Completeness of the scanner on a core of the shape
`X ++ '.' :: v :: ds`: no earlier split can succeed (the digit group would
contain the later `'.'`), so the groups are exactly `X`, `.v`, `ds`. -/
theorem scanMatch_shape {X : List Char} (acc : List Char) {v : Char} {ds : List Char}
    (hX : '\n' ∉ X) (hacc : '\n' ∉ acc) (hne : acc ≠ [] ∨ X ≠ [])
    (hv : v = 'v' ∨ v = 'V') (hds : ds ≠ []) (hdig : ds.all isDig = true) :
    scanMatch acc (X ++ '.' :: v :: ds) = some (acc.reverse ++ X, ['.', v], ds) := by
  induction X generalizing acc with
  | nil =>
    have haccne : acc ≠ [] := by
      rcases hne with h | h
      · exact h
      · exact absurd rfl h
    rw [List.nil_append, scanMatch, checkHere,
      if_pos ⟨rfl, hv, haccne, hds, hdig⟩, List.append_nil]
  | cons x X' ih =>
    have hx : x ≠ '\n' := fun he => hX (he ▸ List.mem_cons_self x X')
    have hX' : '\n' ∉ X' := fun he => hX (List.mem_cons_of_mem x he)
    have hchk : checkHere acc (x :: (X' ++ '.' :: v :: ds)) = none := by
      cases X' with
      | nil =>
        rw [List.nil_append, checkHere, if_neg]
        rintro ⟨-, h2, -⟩
        rcases h2 with h | h <;> exact absurd h (by decide)
      | cons y X'' =>
        rw [List.cons_append, checkHere, if_neg]
        rintro ⟨-, -, -, -, h5⟩
        have hdot : '.' ∈ X'' ++ '.' :: v :: ds := by simp
        rw [all_isDig_false_of_dot hdot] at h5
        exact Bool.false_ne_true h5
    rw [List.cons_append, scanMatch, hchk, if_neg hx]
    have hacc2 : '\n' ∉ x :: acc := by
      intro hmem
      rcases List.mem_cons.mp hmem with he | he
      · exact hx he.symm
      · exact hacc he
    show scanMatch (x :: acc) (X' ++ '.' :: v :: ds) = _
    rw [ih (x :: acc) hX' hacc2 (Or.inl (by simp)),
      List.reverse_cons, List.append_assoc, List.singleton_append]

theorem extCI_cases {e : List Char} (h : extCI e = true) :
    ∃ cn ck, e = ['.', cn, ck] ∧ (cn = 'n' ∨ cn = 'N') ∧ (ck = 'k' ∨ ck = 'K') := by
  match e with
  | [] => simp [extCI] at h
  | [a] => simp [extCI] at h
  | [a, b] => simp [extCI] at h
  | a :: b :: c :: d :: t => simp [extCI] at h
  | [a, b, c] =>
    rw [extCI] at h
    simp only [decide_eq_true_eq] at h
    obtain ⟨h1, h2, h3⟩ := h
    exact ⟨b, c, by rw [h1], h2, h3⟩

theorem matchCore_some {b nm vt ds e : List Char}
    (h : matchCore b = some (nm, vt, ds, e)) :
    e = b.drop (b.length - 3) ∧ extCI e = true ∧
      scanMatch [] (b.take (b.length - 3)) = some (nm, vt, ds) := by
  rw [matchCore] at h
  by_cases hext : extCI (b.drop (b.length - 3)) = true
  · rw [if_pos hext] at h
    cases hscan : scanMatch [] (b.take (b.length - 3)) with
    | none => rw [hscan] at h; exact absurd h (by simp)
    | some r =>
      rw [hscan] at h
      obtain ⟨r1, r2, r3⟩ := r
      simp only [Option.some_inj, Prod.mk.injEq] at h
      obtain ⟨h1, h2, h3, h4⟩ := h
      subst h1; subst h2; subst h3; subst h4
      exact ⟨rfl, hext, by rw [← hscan]⟩
  · rw [if_neg hext] at h
    exact absurd h (by simp)

theorem matchCore_pos {core e nm vt ds : List Char} (he : e.length = 3)
    (hext : extCI e = true)
    (hscan : scanMatch [] core = some (nm, vt, ds)) :
    matchCore (core ++ e) = some (nm, vt, ds, e) := by
  have hlen : (core ++ e).length - 3 = core.length := by
    rw [List.length_append, he]
    omega
  rw [matchCore, hlen, List.take_left, List.drop_left, if_pos hext, hscan]

theorem reMatch_of_no_newline {b : List Char} (h : b.getLast? ≠ some '\n') :
    reMatch b = matchCore b := if_neg h

/-! ### Version tokens in a basename -/

/-- `hasVTok b` holds when `b` contains a `'.'`, then `v`/`V`, then an
ASCII digit, at consecutive positions: the minimal text needed for the
version regex to have any chance of matching. -/
def hasVTok : List Char → Bool
  | c0 :: c1 :: c2 :: rest =>
      (c0 = '.' ∧ (c1 = 'v' ∨ c1 = 'V') ∧ isDig c2 = true : Bool) ||
        hasVTok (c1 :: c2 :: rest)
  | _ => false

theorem hasVTok_of_shape (pre : List Char) {c d0 : Char} (rest : List Char)
    (hc : c = 'v' ∨ c = 'V') (hd : isDig d0 = true) :
    hasVTok (pre ++ '.' :: c :: d0 :: rest) = true := by
  induction pre with
  | nil =>
    rw [List.nil_append, hasVTok]
    simp [hc, hd]
  | cons x pre' ih =>
    cases pre' with
    | nil =>
      rw [List.nil_append] at ih
      show hasVTok (x :: '.' :: c :: d0 :: rest) = true
      rw [hasVTok, ih, Bool.or_true]
    | cons y pre'' =>
      show hasVTok (x :: y :: (pre'' ++ '.' :: c :: d0 :: rest)) = true
      cases hpp : pre'' ++ '.' :: c :: d0 :: rest with
      | nil => exact absurd hpp (by simp)
      | cons z t =>
        rw [hasVTok]
        have : hasVTok (y :: z :: t) = true := by
          rw [← hpp]
          exact ih
        rw [this, Bool.or_true]

theorem hasVTok_append {A : List Char} (B : List Char) (h : hasVTok A = true) :
    hasVTok (A ++ B) = true := by
  induction A with
  | nil => simp [hasVTok] at h
  | cons a A' ih =>
    match A', ih with
    | [], _ => simp [hasVTok] at h
    | [b], _ => simp [hasVTok] at h
    | b :: c :: t, ih =>
      rw [hasVTok] at h
      show hasVTok (a :: b :: c :: (t ++ B)) = true
      rw [hasVTok]
      rcases Bool.or_eq_true_iff.mp h with h1 | h2
      · rw [decide_eq_true_eq] at h1
        simp [h1]
      · have hh := ih h2
        rw [Bool.or_eq_true_iff]
        right
        simpa using hh

theorem matchCore_hasVTok {b : List Char} {r} (h : matchCore b = some r) :
    hasVTok b = true := by
  obtain ⟨nm, vt, ds, e⟩ := r
  obtain ⟨he, hext, hscan⟩ := matchCore_some h
  obtain ⟨pre, c, heq, hc, hds, hdig, -, -, -, -⟩ := scanMatch_some (by simp) hscan
  cases ds with
  | nil => exact absurd rfl hds
  | cons d0 ds' =>
    have hd0 : isDig d0 = true := by
      have := List.all_eq_true.mp hdig d0 (by simp)
      exact this
    have hb : b = (pre ++ '.' :: c :: d0 :: (ds' ++ b.drop (b.length - 3))) := by
      conv_lhs => rw [← List.take_append_drop (b.length - 3) b]
      rw [heq]
      simp
    rw [hb]
    exact hasVTok_of_shape pre _ hc hd0

theorem reMatch_none_of_no_vtok {b : List Char} (h : hasVTok b = false) :
    reMatch b = none := by
  rw [reMatch]
  by_cases hl : b.getLast? = some '\n'
  · rw [if_pos hl]
    cases hm : matchCore b.dropLast with
    | none => rfl
    | some r =>
      exfalso
      have h1 := matchCore_hasVTok hm
      have hb : b = b.dropLast ++ [b.getLast (by rintro rfl; simp at hl)] := by
        rw [List.dropLast_append_getLast]
      rw [hb, hasVTok_append _ h1] at h
      simp at h
  · rw [if_neg hl]
    cases hm : matchCore b with
    | none => rfl
    | some r =>
      exfalso
      rw [matchCore_hasVTok hm] at h
      simp at h

/-! ### Interaction of `joinPath` with `basename` and `dirname` -/

theorem dropWhile_head_false {p : Char → Bool} {l : List Char} {a : Char} {t : List Char}
    (h : l.dropWhile p = a :: t) : p a = false := by
  induction l with
  | nil => simp [List.dropWhile] at h
  | cons x l' ih =>
    rw [List.dropWhile_cons] at h
    by_cases hx : p x = true
    · rw [if_pos hx] at h
      exact ih h
    · rw [if_neg hx] at h
      injection h with h1 _
      rw [← h1]
      exact Bool.not_eq_true _ ▸ hx

theorem joinPath_eq_append (a b : List Char) : ∃ pre, joinPath a b = pre ++ b := by
  rw [joinPath]
  by_cases h1 : b.head? = some '/'
  · exact ⟨[], by rw [if_pos h1, List.nil_append]⟩
  · rw [if_neg h1]
    by_cases h2 : a = [] ∨ a.getLast? = some '/'
    · exact ⟨a, by rw [if_pos h2]⟩
    · exact ⟨a ++ ['/'], by rw [if_neg h2]; simp⟩

theorem basename_of_no_slash {f : List Char} (hf : '/' ∉ f) : basename f = f := by
  rw [basename, takeWhile_eq_self_of_all, List.reverse_reverse]
  intro x hx
  rw [List.mem_reverse] at hx
  simp only [Bool.not_eq_true']
  rw [decide_eq_false_iff_not]
  exact fun he => hf (he ▸ hx)

theorem basename_joinPath {d f : List Char} (hf : '/' ∉ f) (hne : f ≠ []) :
    basename (joinPath d f) = f := by
  have hhead : f.head? ≠ some '/' := by
    cases f with
    | nil => exact absurd rfl hne
    | cons c t =>
      intro hc
      rw [List.head?_cons, Option.some_inj] at hc
      exact hf (hc ▸ List.mem_cons_self c t)
  have hrevf : ∀ x ∈ f.reverse, (!(x = '/' : Bool)) = true := by
    intro x hx
    rw [List.mem_reverse] at hx
    simp only [Bool.not_eq_true']
    rw [decide_eq_false_iff_not]
    exact fun he => hf (he ▸ hx)
  rw [joinPath, if_neg hhead]
  by_cases h2 : d = [] ∨ d.getLast? = some '/'
  · rw [if_pos h2]
    rcases h2 with rfl | hlast
    · rw [List.nil_append]
      exact basename_of_no_slash hf
    · rw [basename, List.reverse_append, takeWhile_append_of_all _ hrevf]
      have : d.reverse.head? = some '/' := by rw [List.head?_reverse]; exact hlast
      cases hd : d.reverse with
      | nil => rw [hd] at this; simp at this
      | cons a t =>
        rw [hd] at this
        rw [List.head?_cons, Option.some_inj] at this
        rw [takeWhile_cons_of_neg _ (by rw [this]; simp), List.append_nil,
          List.reverse_reverse]
  · rw [if_neg h2]
    have : (d ++ '/' :: f).reverse = f.reverse ++ '/' :: d.reverse := by
      rw [List.reverse_append, List.reverse_cons, List.append_assoc,
        List.singleton_append]
    rw [basename, this, takeWhile_append_of_all _ hrevf,
      takeWhile_cons_of_neg _ (by simp), List.append_nil, List.reverse_reverse]

/-- The possible shapes of an `os.path.dirname` result: empty, all
slashes, or ending in a non-slash. -/
def dirOK (d : List Char) : Prop :=
  d = [] ∨ (∀ c ∈ d, c = '/') ∨ (d ≠ [] ∧ d.getLast? ≠ some '/')

theorem dirOK_dirname (p : List Char) : dirOK (dirname p) := by
  rw [dirname]
  by_cases hc : headPart p ≠ [] ∧ (headPart p).any (fun c => !(c = '/' : Bool))
  · rw [if_pos hc]
    cases hr : ((headPart p).reverse.dropWhile (fun c => (c = '/' : Bool))).reverse with
    | nil => exact Or.inl rfl
    | cons a t =>
      refine Or.inr (Or.inr ⟨by simp, ?_⟩)
      rw [← hr]
      rw [← List.head?_reverse, List.reverse_reverse]
      cases hd : (headPart p).reverse.dropWhile (fun c => (c = '/' : Bool)) with
      | nil =>
        rw [hd] at hr
        simp at hr
      | cons b u =>
        have hb := dropWhile_head_false hd
        rw [List.head?_cons]
        intro hcon
        rw [Option.some_inj] at hcon
        rw [hcon] at hb
        simp at hb
  · rw [if_neg hc]
    rw [Classical.not_and_iff_or_not_not] at hc
    rcases hc with hc | hc
    · rw [Classical.not_not] at hc
      exact Or.inl hc
    · refine Or.inr (Or.inl ?_)
      intro c hcin
      by_contra hne
      exact hc (List.any_eq_true.mpr ⟨c, hcin, by simpa using hne⟩)

theorem dirname_joinPath {d f : List Char} (hd : dirOK d) (hf : '/' ∉ f)
    (hne : f ≠ []) : dirname (joinPath d f) = d := by
  have hhead : f.head? ≠ some '/' := by
    cases f with
    | nil => exact absurd rfl hne
    | cons c t =>
      intro hc
      rw [List.head?_cons, Option.some_inj] at hc
      exact hf (hc ▸ List.mem_cons_self c t)
  have hrevf : ∀ x ∈ f.reverse, (!(x = '/' : Bool)) = true := by
    intro x hx
    rw [List.mem_reverse] at hx
    simp only [Bool.not_eq_true']
    rw [decide_eq_false_iff_not]
    exact fun he => hf (he ▸ hx)
  rw [joinPath, if_neg hhead]
  by_cases hd0 : d = []
  · subst hd0
    rw [if_pos (Or.inl rfl), List.nil_append, dirname]
    have hhp : headPart f = [] := by
      rw [headPart, dropWhile_eq_nil_of_all hrevf]
      rfl
    rw [hhp]
    simp
  · rcases hd with hd | hd | hd
    · exact absurd hd hd0
    · -- d is all slashes and non-empty
      have hlast : d.getLast? = some '/' := by
        cases hdr : d.reverse with
        | nil => exact absurd (by simpa using hdr) hd0
        | cons a t =>
          rw [← List.head?_reverse, hdr, List.head?_cons,
            hd a (by rw [← List.mem_reverse, hdr]; simp)]
      rw [if_pos (Or.inr hlast), dirname]
      have hhp : headPart (d ++ f) = d := by
        rw [headPart, List.reverse_append, dropWhile_append_of_all _ hrevf]
        cases hdr : d.reverse with
        | nil => exact absurd (by simpa using hdr) hd0
        | cons a t =>
          have ha : a = '/' := hd a (by rw [← List.mem_reverse, hdr]; simp)
          rw [dropWhile_cons_of_neg _ (by rw [ha]; simp), ← hdr,
            List.reverse_reverse]
      rw [hhp]
      have hany : d.any (fun c => !(c = '/' : Bool)) = false := by
        rw [Bool.eq_false_iff]
        intro hcon
        rw [List.any_eq_true] at hcon
        obtain ⟨x, hx1, hx2⟩ := hcon
        simp only [Bool.not_eq_true'] at hx2
        rw [decide_eq_false_iff_not] at hx2
        exact hx2 (hd x hx1)
      rw [if_neg (by rw [hany]; simp)]
    · -- d ends in a non-slash
      obtain ⟨hne2, hlast⟩ := hd
      rw [if_neg (by rintro (h | h); exact hne2 h; exact hlast h)]
      rw [dirname]
      have hrev : (d ++ '/' :: f).reverse = f.reverse ++ '/' :: d.reverse := by
        rw [List.reverse_append, List.reverse_cons, List.append_assoc,
          List.singleton_append]
      have hhp : headPart (d ++ '/' :: f) = d ++ ['/'] := by
        rw [headPart, hrev, dropWhile_append_of_all _ hrevf,
          dropWhile_cons_of_neg _ (by simp)]
        rw [List.reverse_cons, List.reverse_reverse]
      rw [hhp]
      obtain ⟨x, hxlast⟩ : ∃ x, d.getLast? = some x := by
        cases hdd : d with
        | nil => exact absurd hdd hne2
        | cons a t => exact ⟨(a :: t).getLast (by simp), List.getLast?_eq_getLast _ _⟩
      have hxne : x ≠ '/' := fun he => hlast (he ▸ hxlast)
      obtain ⟨t, ht⟩ : ∃ t, d.reverse = x :: t := by
        cases hdr : d.reverse with
        | nil => exact absurd (by simpa using hdr) hne2
        | cons a t =>
          have : d.reverse.head? = some x := by rw [List.head?_reverse]; exact hxlast
          rw [hdr, List.head?_cons, Option.some_inj] at this
          exact ⟨t, by rw [this]⟩
      have hany : (d ++ ['/']).any (fun c => !(c = '/' : Bool)) = true := by
        rw [List.any_eq_true]
        refine ⟨x, ?_, by simpa using hxne⟩
        have : x ∈ d := by
          rw [← List.mem_reverse, ht]
          simp
        simp [this]
      rw [if_pos ⟨by simp, hany⟩]
      have hrev2 : (d ++ ['/']).reverse = '/' :: d.reverse := by
        rw [List.reverse_append]; rfl
      rw [hrev2, List.dropWhile_cons, if_pos (by simp), ht,
        dropWhile_cons_of_neg _ (by simpa using hxne), ← ht, List.reverse_reverse]

/-! ### Structure of the match groups -/

theorem matchCore_groups {b nm vt ds e : List Char}
    (h : matchCore b = some (nm, vt, ds, e)) :
    (∀ x ∈ nm, x ∈ b) ∧ (∀ x ∈ ds, x ∈ b) ∧ (∀ x ∈ e, x ∈ b) ∧
      (∃ c, vt = ['.', c] ∧ (c = 'v' ∨ c = 'V')) ∧ nm ≠ [] ∧ '\n' ∉ nm ∧
      ds ≠ [] ∧ ds.all isDig = true ∧ extCI e = true := by
  obtain ⟨he, hext, hscan⟩ := matchCore_some h
  obtain ⟨pre, c, heq, hc, hds, hdig, hvt, hnm, hnl, horig⟩ :=
    scanMatch_some (by simp) hscan
  have hpre : ∀ x ∈ pre, x ∈ b := by
    intro x hx
    have hmem : x ∈ List.take (b.length - 3) b := by rw [heq]; simp [hx]
    exact List.mem_of_mem_take hmem
  refine ⟨?_, ?_, ?_, ⟨c, hvt, hc⟩, hnm, hnl, hds, hdig, hext⟩
  · intro x hx
    rcases horig x hx with hin | hin
    · simp at hin
    · exact hpre x hin
  · intro x hx
    have hmem : x ∈ List.take (b.length - 3) b := by rw [heq]; simp [hx]
    exact List.mem_of_mem_take hmem
  · intro x hx
    rw [he] at hx
    exact List.mem_of_mem_drop hx

theorem reMatch_some_src {b nm vt ds e : List Char}
    (h : reMatch b = some (nm, vt, ds, e)) :
    ∃ b', (b' = b ∨ b' = b.dropLast) ∧ matchCore b' = some (nm, vt, ds, e) := by
  rw [reMatch] at h
  by_cases hl : b.getLast? = some '\n'
  · rw [if_pos hl] at h
    exact ⟨b.dropLast, Or.inr rfl, h⟩
  · rw [if_neg hl] at h
    exact ⟨b, Or.inl rfl, h⟩

theorem nextBaseName_no_slash {b : List Char} (hb : '/' ∉ b) :
    '/' ∉ nextBaseName b ∧ nextBaseName b ≠ [] := by
  rw [nextBaseName]
  cases hm : reMatch b with
  | some r =>
    obtain ⟨nm, vt, ds, e⟩ := r
    obtain ⟨b', hb', hmc⟩ := reMatch_some_src hm
    have hsub : ∀ x ∈ b', x ∈ b := by
      intro x hx
      rcases hb' with rfl | rfl
      · exact hx
      · exact List.mem_of_mem_dropLast hx
    obtain ⟨h1, h2, h3, ⟨c, hvt, hc⟩, hne, -, -, -, -⟩ := matchCore_groups hmc
    constructor
    · intro hx
      rcases List.mem_append.mp hx with hx | hx
      · rcases List.mem_append.mp hx with hx | hx
        · rcases List.mem_append.mp hx with hx | hx
          · exact hb (hsub _ (h1 _ hx))
          · rw [hvt] at hx
            rcases List.mem_cons.mp hx with hx | hx
            · exact absurd hx.symm (by decide)
            · rcases List.mem_cons.mp hx with hx | hx
              · rcases hc with rfl | rfl <;> exact absurd hx.symm (by decide)
              · simp at hx
        · exact absurd rfl (isDig_ne_slash
            (List.all_eq_true.mp (fmt03_all_isDig _) '/' hx))
      · exact hb (hsub _ (h3 _ hx))
    · intro hcon
      rw [hvt] at hcon
      simp at hcon
  | none =>
    constructor
    · intro hx
      rcases List.mem_append.mp hx with hx | hx
      · rcases List.mem_append.mp hx with hx | hx
        · exact hb (splitext_mem_left hx)
        · exact absurd hx (by decide)
      · exact hb (splitext_mem_right hx)
    · intro hcon
      simp at hcon

/-- The basename of the result of `_get_next_version_path` is exactly the
computed next basename, and its directory is unchanged. -/
theorem basename_next (p : List Char) :
    basename (get_next_version_path p) = nextBaseName (basename p) := by
  obtain ⟨h1, h2⟩ := nextBaseName_no_slash (basename_no_slash p)
  rw [get_next_version_path]
  exact basename_joinPath h1 h2

theorem dirname_next (p : List Char) :
    dirname (get_next_version_path p) = dirname p := by
  obtain ⟨h1, h2⟩ := nextBaseName_no_slash (basename_no_slash p)
  rw [get_next_version_path]
  exact dirname_joinPath (dirOK_dirname p) h1 h2

/-! ### The match on a basename of the canonical versioned shape -/

theorem reMatch_shape {X ds : List Char} {v n k : Char}
    (hX : X ≠ []) (hnl : '\n' ∉ X)
    (hv : v = 'v' ∨ v = 'V') (hn : n = 'n' ∨ n = 'N') (hk : k = 'k' ∨ k = 'K')
    (hds : ds ≠ []) (hdig : ds.all isDig = true) :
    reMatch (X ++ '.' :: v :: (ds ++ ['.', n, k])) =
      some (X, ['.', v], ds, ['.', n, k]) := by
  have hsplit : X ++ '.' :: v :: (ds ++ ['.', n, k]) =
      (X ++ '.' :: v :: ds) ++ ['.', n, k] := by
    simp
  have hk2 : k ≠ '\n' := by rcases hk with rfl | rfl <;> decide
  have hlast : (X ++ '.' :: v :: (ds ++ ['.', n, k])).getLast? ≠ some '\n' := by
    rw [hsplit, getLast?_append_ne_nil (by simp)]
    intro hcon
    simp only [List.getLast?_cons, Option.some_inj] at hcon
    exact hk2 (by simpa using hcon)
  rw [reMatch_of_no_newline hlast, hsplit]
  have hext : extCI ['.', n, k] = true := by
    rcases hn with rfl | rfl <;> rcases hk with rfl | rfl <;> decide
  have hscan := scanMatch_shape ([]) hnl (by simp) (Or.inr hX) hv hds hdig
  rw [List.reverse_nil, List.nil_append] at hscan
  exact matchCore_pos rfl hext hscan

theorem nextBaseName_match {X ds : List Char} {v n k : Char}
    (hX : X ≠ []) (hnl : '\n' ∉ X)
    (hv : v = 'v' ∨ v = 'V') (hn : n = 'n' ∨ n = 'N') (hk : k = 'k' ∨ k = 'K')
    (hds : ds ≠ []) (hdig : ds.all isDig = true) :
    nextBaseName (X ++ '.' :: v :: (ds ++ ['.', n, k])) =
      X ++ '.' :: v :: (fmt03 (parseDigits ds + 1) ++ ['.', n, k]) := by
  rw [nextBaseName, reMatch_shape hX hnl hv hn hk hds hdig]
  simp

/-! ### The plain-save comparison never succeeds

`_execute_version_up` compares `current_path.lower()` with
`next_version_path.lower()`.  The next lemmas show the comparison is never
an equality: on a regex match the digit group strictly grows by one, and
otherwise `.v001` strictly lengthens the name. -/

theorem takeWhile_isDig_rev_tail {ds : List Char} {lc : Char} (rest : List Char)
    (hdig : ds.all isDig = true) (hc : isDig lc = false) :
    (ds.reverse ++ lc :: rest).takeWhile isDig = ds.reverse := by
  rw [takeWhile_append_of_all _ (fun x hx => List.all_eq_true.mp hdig x
      (List.mem_reverse.mp hx)),
    takeWhile_cons_of_neg _ hc, List.append_nil]

theorem revDigitsTail {front ds : List Char} {c : Char} {e3 : List Char}
    (h3 : e3.length = 3) (hdig : ds.all isDig = true)
    (hc : isDig (lowerChar c) = false) :
    ((lowerStr ((front ++ '.' :: c :: ds) ++ e3)).reverse.drop 3).takeWhile isDig
      = ds.reverse := by
  have hlen : (lowerStr e3).reverse.length = 3 := by
    simp [lowerStr, h3]
  have h1 : (lowerStr ((front ++ '.' :: c :: ds) ++ e3)).reverse =
      (lowerStr e3).reverse ++ (lowerStr (front ++ '.' :: c :: ds)).reverse := by
    rw [lowerStr, List.map_append, List.reverse_append]
    rfl
  rw [h1, List.drop_left' hlen]
  have h2 : lowerStr (front ++ '.' :: c :: ds) =
      lowerStr front ++ '.' :: lowerChar c :: ds := by
    rw [lowerStr, List.map_append, List.map_cons, List.map_cons]
    have : List.map lowerChar ds = ds := lowerStr_of_all_isDig hdig
    rw [this]
    rfl
  rw [h2, List.reverse_append, List.reverse_cons, List.reverse_cons]
  have h3' : (ds.reverse ++ [lowerChar c]) ++ ['.'] ++ (lowerStr front).reverse =
      ds.reverse ++ lowerChar c :: '.' :: (lowerStr front).reverse := by
    simp
  rw [h3', takeWhile_isDig_rev_tail _ hdig hc]

/-- The heart of the dead plain-save branch: lower-casing the basename
never reproduces the lower-cased next basename. -/
theorem lowerStr_nextBaseName_ne (b : List Char) :
    lowerStr b ≠ lowerStr (nextBaseName b) := by
  intro h
  rw [nextBaseName] at h
  cases hm : reMatch b with
  | none =>
    rw [hm] at h
    have hlen := congrArg List.length h
    have hse := congrArg List.length (splitext_append b)
    simp only [lowerStr, List.length_map, List.length_append] at hlen hse
    simp only [List.length_cons, List.length_nil] at hlen
    omega
  | some r =>
    obtain ⟨nm, vt, ds, e⟩ := r
    rw [hm] at h
    rw [reMatch] at hm
    by_cases hl : b.getLast? = some '\n'
    · rw [if_pos hl] at hm
      obtain ⟨-, -, -, -, -, -, -, -, hext⟩ := matchCore_groups hm
      obtain ⟨cn, ck, rfl, -, hck⟩ := extCI_cases hext
      have hlast1 : (lowerStr b).getLast? = some '\n' := by
        rw [lowerStr, List.getLast?_map, hl]
        rfl
      have hlast2 : (lowerStr (nm ++ vt ++ fmt03 (parseDigits ds + 1) ++
          ['.', cn, ck])).getLast? = some (lowerChar ck) := by
        rw [lowerStr, List.getLast?_map, getLast?_append_ne_nil (by simp)]
        rfl
      rw [h, hlast2] at hlast1
      rw [Option.some_inj] at hlast1
      rcases hck with rfl | rfl <;> exact absurd hlast1 (by decide)
    · rw [if_neg hl] at hm
      obtain ⟨he, hext, hscan⟩ := matchCore_some hm
      obtain ⟨pre, c, heq, hc, hdsne, hdig, hvt, -, -, -⟩ :=
        scanMatch_some (by simp) hscan
      have hb : b = (pre ++ '.' :: c :: ds) ++ e := by
        conv_lhs => rw [← List.take_append_drop (b.length - 3) b]
        rw [heq, ← he]
      have he3 : e.length = 3 := by
        obtain ⟨cn, ck, rfl, -, -⟩ := extCI_cases hext
        rfl
      have hlc : isDig (lowerChar c) = false := by
        rcases hc with rfl | rfl <;> decide
      have hF := congrArg
        (fun l => (l.reverse.drop 3).takeWhile isDig) h
      simp only at hF
      rw [hb] at hF
      rw [revDigitsTail he3 hdig hlc] at hF
      have hrhs : nm ++ vt ++ fmt03 (parseDigits ds + 1) ++ e =
          (nm ++ '.' :: c :: fmt03 (parseDigits ds + 1)) ++ e := by
        rw [hvt]; simp
      rw [hrhs, revDigitsTail he3 (fmt03_all_isDig _) hlc] at hF
      have hds : ds = fmt03 (parseDigits ds + 1) :=
        List.reverse_injective hF
      have := congrArg parseDigits hds
      rw [parseDigits_fmt03] at this
      omega

theorem takeWhile_ne_slash_map_lower (l : List Char) :
    (l.map lowerChar).takeWhile (fun c => !(c = '/' : Bool)) =
      (l.takeWhile (fun c => !(c = '/' : Bool))).map lowerChar := by
  induction l with
  | nil => rfl
  | cons a t ih =>
    by_cases ha : a = '/'
    · subst ha
      rw [List.map_cons]
      have hl : lowerChar '/' = '/' := rfl
      rw [hl, takeWhile_cons_of_neg _ (by decide), takeWhile_cons_of_neg _ (by decide)]
      rfl
    · have h1 : (!(lowerChar a = '/' : Bool)) = true := by
        simp only [Bool.not_eq_true']
        rw [decide_eq_false_iff_not]
        exact fun he => ha ((lowerChar_eq_slash_iff a).mp he)
      have h2 : (!(a = '/' : Bool)) = true := by
        simp only [Bool.not_eq_true']
        rw [decide_eq_false_iff_not]
        exact ha
      rw [List.map_cons, List.takeWhile_cons, List.takeWhile_cons, h1, h2]
      simp only [if_true]
      rw [List.map_cons, ih]

theorem basename_lowerStr (x : List Char) :
    basename (lowerStr x) = lowerStr (basename x) := by
  rw [basename, basename, lowerStr, lowerStr, ← List.map_reverse,
    takeWhile_ne_slash_map_lower, List.map_reverse]

/-- Lifting `lowerStr_nextBaseName_ne` to full paths: the branch
`current_path.lower() == next_version_path.lower()` of
`_execute_version_up` can never be taken. -/
theorem lowerStr_path_ne_next (p : List Char) :
    lowerStr p ≠ lowerStr (get_next_version_path p) := by
  intro h
  have hb := congrArg basename h
  rw [basename_lowerStr, basename_lowerStr, basename_next] at hb
  exact lowerStr_nextBaseName_ne (basename p) hb

/-! ### Version numbers readable from a filename

`vTokVals` lists, left to right, the numeric values of all `.v<digits>`
tokens of a string (the `v` case-insensitive).  It is the specification
level notion of "the version numbers in a filename" used to judge the
results of `_get_next_version_path`; the token the script manages is the
last one. -/

def vTokValsAux : Nat → List Char → List Nat
  | 0, _ => []
  | fuel + 1, l =>
    match l with
    | [] => []
    | c0 :: rest =>
      match rest with
      | [] => []
      | c1 :: rest2 =>
        if c0 = '.' ∧ (c1 = 'v' ∨ c1 = 'V') ∧ rest2.takeWhile isDig ≠ [] then
          parseDigits (rest2.takeWhile isDig) :: vTokValsAux fuel (rest2.dropWhile isDig)
        else vTokValsAux fuel (c1 :: rest2)

def vTokVals (l : List Char) : List Nat := vTokValsAux l.length l

theorem vTokValsAux_irrel : ∀ (fuel fuel' : Nat) (l : List Char),
    l.length ≤ fuel → l.length ≤ fuel' →
    vTokValsAux fuel l = vTokValsAux fuel' l := by
  intro fuel
  induction fuel with
  | zero =>
    intro fuel' l hl hl'
    have : l = [] := List.length_eq_zero.mp (Nat.le_zero.mp hl)
    subst this
    cases fuel' <;> rfl
  | succ fuel ih =>
    intro fuel' l hl hl'
    cases l with
    | nil => cases fuel' <;> rfl
    | cons c0 rest =>
      cases rest with
      | nil =>
        cases fuel' with
        | zero => simp at hl'
        | succ fuel'' => rfl
      | cons c1 rest2 =>
        cases fuel' with
        | zero => simp at hl'
        | succ fuel'' =>
          rw [vTokValsAux, vTokValsAux]
          simp only [List.length_cons] at hl hl'
          by_cases hcond : c0 = '.' ∧ (c1 = 'v' ∨ c1 = 'V') ∧
              rest2.takeWhile isDig ≠ []
          · rw [if_pos hcond, if_pos hcond,
              ih fuel'' (rest2.dropWhile isDig)
                (le_trans ((List.dropWhile_sublist isDig).length_le) (by omega))
                (le_trans ((List.dropWhile_sublist isDig).length_le) (by omega))]
          · rw [if_neg hcond, if_neg hcond,
              ih fuel'' (c1 :: rest2) (by simp; omega) (by simp; omega)]

theorem takeWhile_append_head_neg {p : Char → Bool} {B : List Char} {b0 : Char}
    (A : List Char) (hB : B.head? = some b0) (hb0 : p b0 = false) :
    (A ++ B).takeWhile p = A.takeWhile p := by
  induction A with
  | nil =>
    cases B with
    | nil => simp at hB
    | cons b t =>
      rw [List.head?_cons, Option.some_inj] at hB
      subst hB
      rw [List.nil_append, takeWhile_cons_of_neg _ hb0]
      rfl
  | cons a A' ih =>
    rw [List.cons_append, List.takeWhile_cons, List.takeWhile_cons]
    by_cases ha : p a = true
    · simp only [ha, if_true]
      rw [ih]
    · rw [Bool.not_eq_true] at ha
      rw [ha]
      simp

theorem dropWhile_append_head_neg {p : Char → Bool} {B : List Char} {b0 : Char}
    (A : List Char) (hB : B.head? = some b0) (hb0 : p b0 = false) :
    (A ++ B).dropWhile p = A.dropWhile p ++ B := by
  induction A with
  | nil =>
    cases B with
    | nil => simp at hB
    | cons b t =>
      rw [List.head?_cons, Option.some_inj] at hB
      subst hB
      rw [List.nil_append, dropWhile_cons_of_neg _ hb0]
      rfl
  | cons a A' ih =>
    rw [List.cons_append, List.dropWhile_cons, List.dropWhile_cons]
    by_cases ha : p a = true
    · simp only [ha, if_true]
      rw [ih]
    · rw [Bool.not_eq_true] at ha
      rw [ha]
      simp

theorem vTokVals_cons_cons (c0 c1 : Char) (r : List Char) : vTokVals (c0 :: c1 :: r) =
    if c0 = '.' ∧ (c1 = 'v' ∨ c1 = 'V') ∧ r.takeWhile isDig ≠ [] then
      parseDigits (r.takeWhile isDig) :: vTokVals (r.dropWhile isDig)
    else vTokVals (c1 :: r) := by
  rw [vTokVals]
  simp only [List.length_cons]
  rw [vTokValsAux]
  by_cases hcond : c0 = '.' ∧ (c1 = 'v' ∨ c1 = 'V') ∧ r.takeWhile isDig ≠ []
  · rw [if_pos hcond, if_pos hcond, vTokVals,
      vTokValsAux_irrel (r.length + 1) (r.dropWhile isDig).length (r.dropWhile isDig)
        (le_trans ((List.dropWhile_sublist isDig).length_le) (by omega)) le_rfl]
  · rw [if_neg hcond, if_neg hcond, vTokVals]
    simp only [List.length_cons]

theorem vTokVals_ext {cn ck : Char} (hn : cn = 'n' ∨ cn = 'N') :
    vTokVals ['.', cn, ck] = [] := by
  rw [vTokVals_cons_cons, if_neg]
  · rw [vTokVals_cons_cons, if_neg]
    · rfl
    · rintro ⟨h1, -⟩
      rcases hn with rfl | rfl <;> exact absurd h1 (by decide)
  · rintro ⟨-, h2, -⟩
    rcases h2 with h2 | h2 <;> rcases hn with rfl | rfl <;> exact absurd h2 (by decide)

theorem vTokVals_canonical {v cn ck : Char} {ds : List Char}
    (hv : v = 'v' ∨ v = 'V') (hn : cn = 'n' ∨ cn = 'N')
    (hds : ds ≠ []) (hdig : ds.all isDig = true) :
    vTokVals ('.' :: v :: (ds ++ ['.', cn, ck])) = [parseDigits ds] := by
  have htw : (ds ++ ['.', cn, ck]).takeWhile isDig = ds := by
    rw [takeWhile_append_head_neg ds (by rfl) (by decide),
      takeWhile_eq_self_of_all (List.all_eq_true.mp hdig)]
  have hdw : (ds ++ ['.', cn, ck]).dropWhile isDig = ['.', cn, ck] := by
    rw [dropWhile_append_head_neg ds (by rfl) (by decide),
      dropWhile_eq_nil_of_all (List.all_eq_true.mp hdig), List.nil_append]
  rw [vTokVals_cons_cons, if_pos ⟨rfl, hv, by rw [htw]; exact hds⟩, htw, hdw,
    vTokVals_ext hn]

theorem getLast?_cons_of_ne_nil {α : Type} {L : List α} (a : α) (h : L ≠ []) :
    (a :: L).getLast? = L.getLast? := by
  have : a :: L = [a] ++ L := rfl
  rw [this, getLast?_append_ne_nil h]

theorem vTokVals_last_aux (N : Nat) : ∀ (Y : List Char), Y.length ≤ N →
    ∀ {v cn ck : Char} {ds : List Char},
    (v = 'v' ∨ v = 'V') → (cn = 'n' ∨ cn = 'N') → ds ≠ [] → ds.all isDig = true →
    (vTokVals (Y ++ '.' :: v :: (ds ++ ['.', cn, ck]))).getLast? =
      some (parseDigits ds) := by
  induction N with
  | zero =>
    intro Y hY v cn ck ds hv hn hds hdig
    have hY0 : Y = [] := List.length_eq_zero.mp (Nat.le_zero.mp hY)
    subst hY0
    rw [List.nil_append, vTokVals_canonical hv hn hds hdig]
    rfl
  | succ N ih =>
    intro Y hY v cn ck ds hv hn hds hdig
    cases Y with
    | nil =>
      rw [List.nil_append, vTokVals_canonical hv hn hds hdig]
      rfl
    | cons y Y' =>
      cases Y' with
      | nil =>
        rw [List.cons_append, List.nil_append, vTokVals_cons_cons, if_neg]
        · rw [vTokVals_canonical hv hn hds hdig]
          rfl
        · rintro ⟨-, h2, -⟩
          rcases h2 with h2 | h2 <;> exact absurd h2 (by decide)
      | cons y2 Y'' =>
        rw [List.cons_append, List.cons_append, vTokVals_cons_cons]
        by_cases hcond : y = '.' ∧ (y2 = 'v' ∨ y2 = 'V') ∧
            ((Y'' ++ '.' :: v :: (ds ++ ['.', cn, ck])).takeWhile isDig) ≠ []
        · rw [if_pos hcond]
          have hdw : (Y'' ++ '.' :: v :: (ds ++ ['.', cn, ck])).dropWhile isDig =
              Y''.dropWhile isDig ++ '.' :: v :: (ds ++ ['.', cn, ck]) :=
            dropWhile_append_head_neg Y'' (by rfl) (by decide)
          rw [hdw]
          have hlen : (Y''.dropWhile isDig).length ≤ N := by
            have h1 := (List.dropWhile_sublist (l := Y'') isDig).length_le
            simp only [List.length_cons] at hY
            omega
          have hrec := @ih (Y''.dropWhile isDig) hlen v cn ck ds hv hn hds hdig
          have hLne : vTokVals (Y''.dropWhile isDig ++
              '.' :: v :: (ds ++ ['.', cn, ck])) ≠ [] := by
            intro hcon
            rw [hcon] at hrec
            simp at hrec
          rw [getLast?_cons_of_ne_nil _ hLne, hrec]
        · rw [if_neg hcond]
          have hrec := @ih (y2 :: Y'') (by simp only [List.length_cons] at hY ⊢; omega)
            v cn ck ds hv hn hds hdig
          rw [List.cons_append] at hrec
          exact hrec

/-- The last `.v<digits>` token of `Y ++ ".v" ++ ds ++ ".nk"` (case
variants allowed) has value `int ds`. -/
theorem vTokVals_getLast (Y : List Char) {v cn ck : Char} {ds : List Char}
    (hv : v = 'v' ∨ v = 'V') (hn : cn = 'n' ∨ cn = 'N') (hds : ds ≠ [])
    (hdig : ds.all isDig = true) :
    (vTokVals (Y ++ '.' :: v :: (ds ++ ['.', cn, ck]))).getLast? =
      some (parseDigits ds) :=
  vTokVals_last_aux Y.length Y le_rfl hv hn hds hdig

/-! ### The auto-saver state machine

State of one `AutoSaverCallbacks` instance, plus ghost accounting for
timer liveness.  `heldTimer` models `self.timer`: `none` before any timer
was created, `some true` a live (started, not cancelled, not fired)
`threading.Timer`, `some false` a handle whose timer was cancelled or has
fired.  `orphanLive` counts timers that were still live when their handle
was dropped (replaced by a new `threading.Timer`): the code cancels before
replacing, so it provably stays `0`, which is exactly the "at most one
live timer" argument.

The host inputs read inside a method (`time.time()` and
`nuke.root().name()`) are passed as the arguments `now` and `rootName`;
each function returns the new state and the list of host effects
(`nuke.scriptSave`, `nuke.scriptSaveAs`, `timer.cancel`, `Timer(...).start`)
in execution order.  `print` logging is not modelled. -/

inductive Effect
  | save
  | saveAs (path : List Char)
  | timerCancel
  | timerStart
deriving DecidableEq

structure AutoSaverState where
  backup_interval : Nat
  idle_threshold : Nat
  last_interaction_time : Nat
  heldTimer : Option Bool
  orphanLive : Nat
deriving DecidableEq

/-- `AutoSaverCallbacks._track_interaction`. -/
def track_interaction (s : AutoSaverState) (now : Nat) : AutoSaverState :=
  { s with last_interaction_time := now }

/-- `AutoSaverCallbacks.start_or_reset_timer` (`versionUp.py`): track the
interaction, cancel a pending timer if any, and if a real document is open
start a fresh timer. -/
def start_or_reset_timer (s : AutoSaverState) (now : Nat) (rootName : List Char) :
    AutoSaverState × List Effect :=
  let s1 := track_interaction s now
  let r :=
    match s1.heldTimer with
    | some _ => ({ s1 with heldTimer := some false }, [Effect.timerCancel])
    | none => (s1, ([] : List Effect))
  if rootName ≠ [] ∧ rootName ≠ ('R' :: 'o' :: 'o' :: 't' :: []) then
    ({ r.1 with
        heldTimer := some true,
        orphanLive := r.1.orphanLive + (if r.1.heldTimer = some true then 1 else 0) },
      r.2 ++ [Effect.timerStart])
  else r

/-- `AutoSaverCallbacks.start_or_reset_timer` as written in
`versionUp12.py` (the body is line-for-line the same logic). -/
def start_or_reset_timer12 (s : AutoSaverState) (now : Nat) (rootName : List Char) :
    AutoSaverState × List Effect :=
  let s1 := track_interaction s now
  let r :=
    match s1.heldTimer with
    | some _ => ({ s1 with heldTimer := some false }, [Effect.timerCancel])
    | none => (s1, ([] : List Effect))
  if rootName ≠ [] ∧ rootName ≠ ('R' :: 'o' :: 'o' :: 't' :: []) then
    ({ r.1 with
        heldTimer := some true,
        orphanLive := r.1.orphanLive + (if r.1.heldTimer = some true then 1 else 0) },
      r.2 ++ [Effect.timerStart])
  else r

/-- `AutoSaverCallbacks._execute_version_up` of `versionUp.py`: idle check
first (skip and reschedule), then the no-document guard (plain return),
then plain save or save-as, and in either save branch a final
`start_or_reset_timer`. -/
def execute_version_up (s : AutoSaverState) (now : Nat) (rootName : List Char) :
    AutoSaverState × List Effect :=
  let idle_duration := now - s.last_interaction_time
  if s.idle_threshold < idle_duration then
    start_or_reset_timer s now rootName
  else if rootName = [] ∨ rootName = ('R' :: 'o' :: 'o' :: 't' :: []) then (s, [])
  else
    let next_version_path := get_next_version_path rootName
    if lowerStr rootName = lowerStr next_version_path then
      let r := start_or_reset_timer s now rootName
      (r.1, Effect.save :: r.2)
    else
      let r := start_or_reset_timer s now rootName
      (r.1, Effect.saveAs next_version_path :: r.2)

/-- `AutoSaverCallbacks._execute_version_up` of `versionUp12.py`: the same
except that the plain-save branch does `nuke.scriptSave(); return` without
rescheduling. -/
def execute_version_up12 (s : AutoSaverState) (now : Nat) (rootName : List Char) :
    AutoSaverState × List Effect :=
  let idle_duration := now - s.last_interaction_time
  if s.idle_threshold < idle_duration then
    start_or_reset_timer12 s now rootName
  else if rootName = [] ∨ rootName = ('R' :: 'o' :: 'o' :: 't' :: []) then (s, [])
  else
    let next_version_path := get_next_version_path rootName
    if lowerStr rootName = lowerStr next_version_path then
      (s, [Effect.save])
    else
      let r := start_or_reset_timer12 s now rootName
      (r.1, Effect.saveAs next_version_path :: r.2)

/-- `AutoSaverCallbacks.stop_timer` (identical in both files apart from
log placement): cancel and clear a pending timer. -/
def stop_timer (s : AutoSaverState) : AutoSaverState × List Effect :=
  match s.heldTimer with
  | some _ => ({ s with heldTimer := none }, [Effect.timerCancel])
  | none => (s, [])

/-- `AutoSaverCallbacks.stop_timer` of `versionUp12.py`. -/
def stop_timer12 (s : AutoSaverState) : AutoSaverState × List Effect :=
  match s.heldTimer with
  | some _ => ({ s with heldTimer := none }, [Effect.timerCancel])
  | none => (s, [])

/-- Number of live timers: the ghost orphan count plus the held one when
it is live. -/
def liveCount (s : AutoSaverState) : Nat :=
  s.orphanLive + (if s.heldTimer = some true then 1 else 0)

def isSaveEffect : Effect → Bool
  | Effect.save => true
  | Effect.saveAs _ => true
  | _ => false

/-! ### Facts about the state machine -/

theorem start_or_reset_eq12 (s : AutoSaverState) (now : Nat) (root : List Char) :
    start_or_reset_timer s now root = start_or_reset_timer12 s now root := rfl

theorem stop_timer_eq12 (s : AutoSaverState) : stop_timer s = stop_timer12 s := rfl

theorem start_or_reset_no_save (s : AutoSaverState) (now : Nat) (root : List Char) :
    ((start_or_reset_timer s now root).2.all (fun e => !(isSaveEffect e))) = true := by
  rw [start_or_reset_timer]
  cases hh : (track_interaction s now).heldTimer <;>
    simp only [hh] <;> split <;> simp [isSaveEffect]

theorem start_or_reset_last (s : AutoSaverState) (now : Nat) (root : List Char) :
    (start_or_reset_timer s now root).1.last_interaction_time = now := by
  rw [start_or_reset_timer]
  cases hh : (track_interaction s now).heldTimer <;>
    simp only [hh] <;> split <;> simp [track_interaction]

theorem start_or_reset_live (s : AutoSaverState) (now : Nat) (root : List Char)
    (h : s.orphanLive = 0) :
    (start_or_reset_timer s now root).1.orphanLive = 0 ∧
      liveCount (start_or_reset_timer s now root).1 ≤ 1 := by
  rw [start_or_reset_timer]
  cases hh : (track_interaction s now).heldTimer <;> simp only [hh] <;> split <;>
    simp only [track_interaction] at hh <;>
    simp [liveCount, track_interaction, hh, h]

theorem stop_timer_live (s : AutoSaverState) (h : s.orphanLive = 0) :
    (stop_timer s).1.orphanLive = 0 ∧ liveCount (stop_timer s).1 ≤ 1 := by
  rw [stop_timer]
  cases hh : s.heldTimer <;> simp [liveCount, h, hh]

/-- The two `_execute_version_up` bodies are extensionally equal: the only
textual difference is the plain-save branch, and the branch guard
`current_path.lower() == next_version_path.lower()` is never true. -/
theorem execute_eq12 (s : AutoSaverState) (now : Nat) (root : List Char) :
    execute_version_up s now root = execute_version_up12 s now root := by
  rw [execute_version_up, execute_version_up12]
  by_cases h1 : s.idle_threshold < now - s.last_interaction_time
  · rw [if_pos h1, if_pos h1]
    rfl
  · rw [if_neg h1, if_neg h1]
    by_cases h2 : root = [] ∨ root = ('R' :: 'o' :: 'o' :: 't' :: [])
    · rw [if_pos h2, if_pos h2]
    · rw [if_neg h2, if_neg h2, if_neg (lowerStr_path_ne_next root),
        if_neg (lowerStr_path_ne_next root)]
      rfl

theorem execute_idle (s : AutoSaverState) (now : Nat) (root : List Char)
    (h : s.idle_threshold < now - s.last_interaction_time) :
    execute_version_up s now root = start_or_reset_timer s now root ∧
      execute_version_up12 s now root = start_or_reset_timer s now root := by
  rw [execute_version_up, execute_version_up12, if_pos h, if_pos h]
  exact ⟨rfl, rfl⟩

theorem execute_no_doc (s : AutoSaverState) (now : Nat) (root : List Char)
    (h1 : ¬ s.idle_threshold < now - s.last_interaction_time)
    (h2 : root = [] ∨ root = ('R' :: 'o' :: 'o' :: 't' :: [])) :
    execute_version_up s now root = (s, []) ∧
      execute_version_up12 s now root = (s, []) := by
  rw [execute_version_up, execute_version_up12, if_neg h1, if_neg h1,
    if_pos h2, if_pos h2]
  exact ⟨rfl, rfl⟩

theorem execute_save_as (s : AutoSaverState) (now : Nat) (root : List Char)
    (h1 : ¬ s.idle_threshold < now - s.last_interaction_time)
    (h2 : ¬ (root = [] ∨ root = ('R' :: 'o' :: 'o' :: 't' :: []))) :
    execute_version_up s now root =
      ((start_or_reset_timer s now root).1,
        Effect.saveAs (get_next_version_path root) ::
          (start_or_reset_timer s now root).2) ∧
      execute_version_up12 s now root =
      ((start_or_reset_timer s now root).1,
        Effect.saveAs (get_next_version_path root) ::
          (start_or_reset_timer s now root).2) := by
  rw [execute_version_up, execute_version_up12, if_neg h1, if_neg h1,
    if_neg h2, if_neg h2, if_neg (lowerStr_path_ne_next root),
    if_neg (lowerStr_path_ne_next root)]
  exact ⟨rfl, rfl⟩

theorem execute_live (s : AutoSaverState) (now : Nat) (root : List Char)
    (h : s.orphanLive = 0) :
    (execute_version_up s now root).1.orphanLive = 0 ∧
      liveCount (execute_version_up s now root).1 ≤ 1 := by
  by_cases h1 : s.idle_threshold < now - s.last_interaction_time
  · rw [(execute_idle s now root h1).1]
    exact start_or_reset_live s now root h
  · by_cases h2 : root = [] ∨ root = ('R' :: 'o' :: 'o' :: 't' :: [])
    · rw [(execute_no_doc s now root h1 h2).1]
      refine ⟨h, ?_⟩
      rw [liveCount, h]
      split <;> omega
    · rw [(execute_save_as s now root h1 h2).1]
      exact start_or_reset_live s now root h

theorem isDig_ne_newline {c : Char} (h : isDig c = true) : c ≠ '\n' := by
  simp only [isDig, decide_eq_true_eq] at h
  rcases h with rfl | rfl | rfl | rfl | rfl | rfl | rfl | rfl | rfl | rfl <;> decide

theorem splitext_stem_ne_nil {b : List Char} (h : extCI (splitext b).2 = true) :
    (splitext b).1 ≠ [] := by
  rw [splitext] at h ⊢
  by_cases h1 : (b.reverse.takeWhile (fun c => !(c = '.' : Bool))).length = b.length
  · rw [if_pos h1] at h
    have h' : extCI ([] : List Char) = true := h
    exact absurd h' (by decide)
  · rw [if_neg h1] at h ⊢
    by_cases h2 : (b.take (b.length - (b.reverse.takeWhile
        (fun c => !(c = '.' : Bool))).length - 1)).any (fun c => !(c = '.' : Bool))
    · rw [if_pos h2]
      intro hcon
      have hcon' : b.take (b.length - (b.reverse.takeWhile
          (fun c => !(c = '.' : Bool))).length - 1) = [] := hcon
      rw [hcon'] at h2
      simp at h2
    · rw [if_neg h2] at h
      have h' : extCI ([] : List Char) = true := h
      exact absurd h' (by decide)

theorem start_or_reset_effects (s : AutoSaverState) (now : Nat) (root : List Char) :
    (start_or_reset_timer s now root).2 =
      (if s.heldTimer.isSome then [Effect.timerCancel] else []) ++
      (if root ≠ [] ∧ root ≠ ('R' :: 'o' :: 'o' :: 't' :: [])
        then [Effect.timerStart] else []) := by
  rw [start_or_reset_timer]
  cases hh : (track_interaction s now).heldTimer <;>
    simp only [track_interaction] at hh <;> split <;> simp [hh]

/-! ## The claims -/

/-- C1 (counterexample): the claim promises `X.vNNN.ext → X.v(NNN+1).ext`
for ANY extension, but the regex only matches the literal extension `.nk`.
On `/shots/shot010.v002.txt` the code takes the no-match branch and
returns `/shots/shot010.v002.v001.txt` instead of the claimed
`/shots/shot010.v003.txt`. -/
theorem claim1_counterexample :
    get_next_version_path ("/shots/shot010.v002.txt".toList) =
      ("/shots/shot010.v002.v001.txt".toList) ∧
    get_next_version_path ("/shots/shot010.v002.txt".toList) ≠
      ("/shots/shot010.v003.txt".toList) := by decide

/-- C1 (amended): for every path whose basename has the form
`X.vNNN.nk` — `X` non-empty and without a newline, `.v` and `.nk` in any
case, `NNN` a non-empty ASCII digit string — `_get_next_version_path`
returns the path with basename `X.v(NNN+1).nk`, where `NNN+1` is
zero-padded to at least 3 digits and the name part, the matched `.v` text
and the matched `.nk` text are kept unchanged; the directory part is kept
unchanged as well. -/
theorem claim1_theorem (p X ds : List Char) (v n k : Char)
    (hb : basename p = X ++ '.' :: v :: (ds ++ ['.', n, k]))
    (hX : X ≠ []) (hnl : '\n' ∉ X)
    (hv : v = 'v' ∨ v = 'V') (hn : n = 'n' ∨ n = 'N') (hk : k = 'k' ∨ k = 'K')
    (hds : ds ≠ []) (hdig : ds.all isDig = true) :
    basename (get_next_version_path p) =
      X ++ '.' :: v :: (fmt03 (parseDigits ds + 1) ++ ['.', n, k]) ∧
    dirname (get_next_version_path p) = dirname p := by
  refine ⟨?_, dirname_next p⟩
  rw [basename_next, hb, nextBaseName_match hX hnl hv hn hk hds hdig]

/-- C1 (witness): the amended claim applied to `/x/shot010.v002.nk`. -/
theorem claim1_witness :
    basename (get_next_version_path ("/x/shot010.v002.nk".toList)) =
      ("shot010".toList) ++ '.' :: 'v' ::
        (fmt03 (parseDigits ("002".toList) + 1) ++ ['.', 'n', 'k']) ∧
    dirname (get_next_version_path ("/x/shot010.v002.nk".toList)) =
      dirname ("/x/shot010.v002.nk".toList) :=
  claim1_theorem ("/x/shot010.v002.nk".toList) ("shot010".toList) ("002".toList)
    'v' 'n' 'k' (by decide) (by decide) (by decide) (Or.inl rfl) (Or.inl rfl)
    (Or.inl rfl) (by decide) (by decide)

/-- C2: for every path whose basename contains no `.v<digit>` token at
all (so in particular no `.vNNN` version suffix), `_get_next_version_path`
keeps the directory and returns the basename with `.v001` inserted
immediately before the original extension as computed by
`os.path.splitext`, preserving that extension (`stem ++ ext` being exactly
the original basename). -/
theorem claim2_theorem (p : List Char) (h : hasVTok (basename p) = false) :
    basename (get_next_version_path p) =
      (splitext (basename p)).1 ++ ('.' :: 'v' :: '0' :: '0' :: '1' :: []) ++
        (splitext (basename p)).2 ∧
    (splitext (basename p)).1 ++ (splitext (basename p)).2 = basename p ∧
    dirname (get_next_version_path p) = dirname p := by
  refine ⟨?_, splitext_append _, dirname_next p⟩
  rw [basename_next, nextBaseName, reMatch_none_of_no_vtok h]

/-- C2 (witness): the claim applied to `/shots/render.nk`, giving
`render.v001.nk`. -/
theorem claim2_witness :
    basename (get_next_version_path ("/shots/render.nk".toList)) =
      (splitext (basename ("/shots/render.nk".toList))).1 ++
        ('.' :: 'v' :: '0' :: '0' :: '1' :: []) ++
        (splitext (basename ("/shots/render.nk".toList))).2 ∧
    (splitext (basename ("/shots/render.nk".toList))).1 ++
        (splitext (basename ("/shots/render.nk".toList))).2 =
      basename ("/shots/render.nk".toList) ∧
    dirname (get_next_version_path ("/shots/render.nk".toList)) =
      dirname ("/shots/render.nk".toList) :=
  claim2_theorem ("/shots/render.nk".toList) (by decide)

/-- One application of the next-basename computation on any basename whose
`splitext` extension is `.nk` (case-insensitive) and which contains no
newline produces `X.v<fmt03 m>.nk` with a non-empty newline-free name part
(for some version value `m`). -/
theorem nextBaseName_step (b0 : List Char) (hnl : '\n' ∉ b0)
    (hext : extCI (splitext b0).2 = true) :
    ∃ X v cn ck m,
      nextBaseName b0 = X ++ '.' :: v :: (fmt03 m ++ ['.', cn, ck]) ∧
      X ≠ [] ∧ '\n' ∉ X ∧ (v = 'v' ∨ v = 'V') ∧ (cn = 'n' ∨ cn = 'N') ∧
      (ck = 'k' ∨ ck = 'K') := by
  rw [nextBaseName]
  cases hm : reMatch b0 with
  | some r =>
    obtain ⟨nm, vt, ds, e⟩ := r
    obtain ⟨b', hb', hmc⟩ := reMatch_some_src hm
    obtain ⟨-, -, -, ⟨c, hvt, hc⟩, hnm, hnmnl, hds, hdig, hexte⟩ :=
      matchCore_groups hmc
    obtain ⟨cn, ck, rfl, hcn, hck⟩ := extCI_cases hexte
    refine ⟨nm, c, cn, ck, parseDigits ds + 1, ?_, hnm, hnmnl, hc, hcn, hck⟩
    rw [hvt]
    simp
  | none =>
    obtain ⟨cn, ck, hsplit, hcn, hck⟩ := extCI_cases hext
    refine ⟨(splitext b0).1, 'v', cn, ck, 1, ?_, splitext_stem_ne_nil hext, ?_,
      Or.inl rfl, hcn, hck⟩
    · rw [hsplit]
      have hf : fmt03 1 = ('0' :: '0' :: '1' :: []) := by decide
      rw [hf]
      simp
    · intro hcon
      exact hnl (splitext_mem_left hcon)

/-- C3 (counterexample): on input `render.txt` the first application
yields `render.v001.txt` (version numbers `[1]`) and the second yields
`render.v001.v001.txt` (version numbers `[1, 1]`): the version number `1`
repeats instead of strictly increasing, because the regex only recognises
the `.nk` extension. -/
theorem claim3_counterexample :
    vTokVals (basename (get_next_version_path ("render.txt".toList))) = [1] ∧
    vTokVals (basename (get_next_version_path
      (get_next_version_path ("render.txt".toList)))) = [1, 1] := by decide

/-- C3 (amended): for every path whose basename contains no newline and
whose `splitext` extension is `.nk` (case-insensitive), applying
`_get_next_version_path` twice produces two results whose final version
numbers are strictly increasing; the same version number never repeats in
that position. -/
theorem claim3_theorem (p : List Char) (hnl : '\n' ∉ basename p)
    (hext : extCI (splitext (basename p)).2 = true) :
    ∃ a b, (vTokVals (basename (get_next_version_path p))).getLast? = some a ∧
      (vTokVals (basename (get_next_version_path
        (get_next_version_path p)))).getLast? = some b ∧ a < b := by
  obtain ⟨X, v, cn, ck, m, hEq, hX, hXnl, hv, hn, hk⟩ :=
    nextBaseName_step (basename p) hnl hext
  refine ⟨m, m + 1, ?_, ?_, by omega⟩
  · rw [basename_next, hEq,
      vTokVals_getLast X hv hn (fmt03_ne_nil m) (fmt03_all_isDig m),
      parseDigits_fmt03]
  · rw [basename_next, basename_next, hEq,
      nextBaseName_match hX hXnl hv hn hk (fmt03_ne_nil m) (fmt03_all_isDig m),
      parseDigits_fmt03,
      vTokVals_getLast X hv hn (fmt03_ne_nil (m + 1)) (fmt03_all_isDig (m + 1)),
      parseDigits_fmt03]

/-- C3 (witness): the amended claim applied to `/shots/shot.nk`
(`shot.v001.nk` then `shot.v002.nk`). -/
theorem claim3_witness :
    ∃ a b, (vTokVals (basename (get_next_version_path
        ("/shots/shot.nk".toList)))).getLast? = some a ∧
      (vTokVals (basename (get_next_version_path (get_next_version_path
        ("/shots/shot.nk".toList))))).getLast? = some b ∧ a < b :=
  claim3_theorem ("/shots/shot.nk".toList) (by decide) (by decide)

/-- C4: in every invocation of `_execute_version_up` (either file) in
which the idle duration `now - last_interaction_time` is strictly greater
than `idle_threshold`, the method performs exactly a
`start_or_reset_timer` call — so no save or save-as effect occurs and the
timer is rescheduled before returning. -/
theorem claim4_theorem (s : AutoSaverState) (now : Nat) (root : List Char)
    (h : s.idle_threshold < now - s.last_interaction_time) :
    execute_version_up s now root = start_or_reset_timer s now root ∧
    execute_version_up12 s now root = start_or_reset_timer s now root ∧
    ((execute_version_up s now root).2.all (fun e => !(isSaveEffect e))) = true ∧
    ((execute_version_up12 s now root).2.all (fun e => !(isSaveEffect e))) = true := by
  obtain ⟨h1, h2⟩ := execute_idle s now root h
  refine ⟨h1, h2, ?_, ?_⟩
  · rw [h1]; exact start_or_reset_no_save s now root
  · rw [h2]; exact start_or_reset_no_save s now root

/-- C4 (witness): idle for 301 s against a 300 s threshold. -/
theorem claim4_witness :
    execute_version_up ⟨4800, 300, 0, some true, 0⟩ 301 ("/a/b.nk".toList) =
      start_or_reset_timer ⟨4800, 300, 0, some true, 0⟩ 301 ("/a/b.nk".toList) ∧
    execute_version_up12 ⟨4800, 300, 0, some true, 0⟩ 301 ("/a/b.nk".toList) =
      start_or_reset_timer ⟨4800, 300, 0, some true, 0⟩ 301 ("/a/b.nk".toList) ∧
    ((execute_version_up ⟨4800, 300, 0, some true, 0⟩ 301
      ("/a/b.nk".toList)).2.all (fun e => !(isSaveEffect e))) = true ∧
    ((execute_version_up12 ⟨4800, 300, 0, some true, 0⟩ 301
      ("/a/b.nk".toList)).2.all (fun e => !(isSaveEffect e))) = true :=
  claim4_theorem ⟨4800, 300, 0, some true, 0⟩ 301 ("/a/b.nk".toList) (by decide)

/-- C5 (counterexample): with a live timer, an idle duration of 5 s
(below the threshold) and no open document (empty path), versionUp.py's
`_execute_version_up` returns with the state and effect list completely
untouched, whereas a `start_or_reset_timer` call from that state would
have set `last_interaction_time` to 5 and emitted a timer-cancel effect.
So the no-document branch does NOT invoke `start_or_reset_timer`,
refuting "every invocation ends with a reschedule". -/
theorem claim5_counterexample :
    execute_version_up ⟨4800, 300, 0, some true, 0⟩ 5 [] =
      (⟨4800, 300, 0, some true, 0⟩, []) ∧
    execute_version_up12 ⟨4800, 300, 0, some true, 0⟩ 5 [] =
      (⟨4800, 300, 0, some true, 0⟩, []) ∧
    (start_or_reset_timer ⟨4800, 300, 0, some true, 0⟩ 5
      []).1.last_interaction_time = 5 ∧
    (start_or_reset_timer ⟨4800, 300, 0, some true, 0⟩ 5 []).2 =
      [Effect.timerCancel] := by decide

/-- C5 (amended): every invocation of `_execute_version_up` (either file)
that takes the idle-skip branch, or that runs with a document path that is
non-empty and not the sentinel `"Root"`, ends with a `start_or_reset_timer`
call (its result is the `start_or_reset_timer` state, and its effects are
the save effects followed by the `start_or_reset_timer` effects); only the
no-document branch returns without rescheduling.  (versionUp12.py's
plain-save branch, which returns without rescheduling, is unreachable
because the path comparison it guards on is never true.) -/
theorem claim5_theorem (s : AutoSaverState) (now : Nat) (root : List Char)
    (h : s.idle_threshold < now - s.last_interaction_time ∨
      (root ≠ [] ∧ root ≠ ('R' :: 'o' :: 'o' :: 't' :: []))) :
    (∃ pre, execute_version_up s now root =
      ((start_or_reset_timer s now root).1,
        pre ++ (start_or_reset_timer s now root).2)) ∧
    (∃ pre, execute_version_up12 s now root =
      ((start_or_reset_timer s now root).1,
        pre ++ (start_or_reset_timer s now root).2)) := by
  by_cases h1 : s.idle_threshold < now - s.last_interaction_time
  · obtain ⟨e1, e2⟩ := execute_idle s now root h1
    exact ⟨⟨[], by rw [e1, List.nil_append]⟩, ⟨[], by rw [e2, List.nil_append]⟩⟩
  · have h2 : ¬ (root = [] ∨ root = ('R' :: 'o' :: 'o' :: 't' :: [])) := by
      rcases h with h | ⟨ha, hb⟩
      · exact absurd h h1
      · rintro (rfl | rfl)
        · exact ha rfl
        · exact hb rfl
    obtain ⟨e1, e2⟩ := execute_save_as s now root h1 h2
    exact ⟨⟨[Effect.saveAs (get_next_version_path root)], by rw [e1]; rfl⟩,
      ⟨[Effect.saveAs (get_next_version_path root)], by rw [e2]; rfl⟩⟩

/-- C5 (witness): the amended claim at a concrete non-idle save-as
invocation. -/
theorem claim5_witness :
    (∃ pre, execute_version_up ⟨4800, 300, 0, some true, 0⟩ 100
        ("/a/b.nk".toList) =
      ((start_or_reset_timer ⟨4800, 300, 0, some true, 0⟩ 100
          ("/a/b.nk".toList)).1,
        pre ++ (start_or_reset_timer ⟨4800, 300, 0, some true, 0⟩ 100
          ("/a/b.nk".toList)).2)) ∧
    (∃ pre, execute_version_up12 ⟨4800, 300, 0, some true, 0⟩ 100
        ("/a/b.nk".toList) =
      ((start_or_reset_timer ⟨4800, 300, 0, some true, 0⟩ 100
          ("/a/b.nk".toList)).1,
        pre ++ (start_or_reset_timer ⟨4800, 300, 0, some true, 0⟩ 100
          ("/a/b.nk".toList)).2)) :=
  claim5_theorem ⟨4800, 300, 0, some true, 0⟩ 100 ("/a/b.nk".toList)
    (Or.inr (by decide))

/-- C6: `versionUp.py` and `versionUp12.py` are behaviourally equivalent:
for every state and every pair of host readings, each of the three
operations produces the same new state and the same sequence of host
save / save-as / timer effects (logging, which the model does not observe,
is the only textual difference; the one branch where the two
`_execute_version_up` bodies differ — the plain-save branch — is
unreachable because `current_path.lower() == next_version_path.lower()`
never holds). -/
theorem claim6_theorem (s : AutoSaverState) (now : Nat) (root : List Char) :
    execute_version_up s now root = execute_version_up12 s now root ∧
    start_or_reset_timer s now root = start_or_reset_timer12 s now root ∧
    stop_timer s = stop_timer12 s :=
  ⟨execute_eq12 s now root, start_or_reset_eq12 s now root, stop_timer_eq12 s⟩

/-- C7: in every invocation of `_execute_version_up` (either file) with
idle duration at most the threshold and a document path that is empty or
the sentinel `"Root"`, the method returns with the state unchanged and no
effects at all — in particular no save or save-as call. -/
theorem claim7_theorem (s : AutoSaverState) (now : Nat) (root : List Char)
    (h1 : now - s.last_interaction_time ≤ s.idle_threshold)
    (h2 : root = [] ∨ root = ('R' :: 'o' :: 'o' :: 't' :: [])) :
    execute_version_up s now root = (s, []) ∧
    execute_version_up12 s now root = (s, []) :=
  execute_no_doc s now root (by omega) h2

/-- C7 (witness): no document open (`nuke.root().name()` = `"Root"`),
user active. -/
theorem claim7_witness :
    execute_version_up ⟨4800, 300, 0, some true, 0⟩ 100
      ('R' :: 'o' :: 'o' :: 't' :: []) = (⟨4800, 300, 0, some true, 0⟩, []) ∧
    execute_version_up12 ⟨4800, 300, 0, some true, 0⟩ 100
      ('R' :: 'o' :: 'o' :: 't' :: []) = (⟨4800, 300, 0, some true, 0⟩, []) :=
  claim7_theorem ⟨4800, 300, 0, some true, 0⟩ 100
    ('R' :: 'o' :: 'o' :: 't' :: []) (by decide) (Or.inr rfl)

/-- C8: at most one timer is ever live.  From any state satisfying the
invariant (no orphaned live timer, hence at most one live timer),
every operation — `start_or_reset_timer`, `_execute_version_up` (both
files) and `stop_timer` — preserves it, and `start_or_reset_timer`'s
effect sequence is exactly a cancel of the pending handle (when one
exists) followed by (optionally) one new timer start, in that order. -/
theorem claim8_theorem (s : AutoSaverState) (now : Nat) (root : List Char)
    (h : s.orphanLive = 0) :
    ((start_or_reset_timer s now root).1.orphanLive = 0 ∧
      liveCount (start_or_reset_timer s now root).1 ≤ 1) ∧
    ((execute_version_up s now root).1.orphanLive = 0 ∧
      liveCount (execute_version_up s now root).1 ≤ 1) ∧
    ((execute_version_up12 s now root).1.orphanLive = 0 ∧
      liveCount (execute_version_up12 s now root).1 ≤ 1) ∧
    ((stop_timer s).1.orphanLive = 0 ∧ liveCount (stop_timer s).1 ≤ 1) ∧
    (start_or_reset_timer s now root).2 =
      (if s.heldTimer.isSome then [Effect.timerCancel] else []) ++
      (if root ≠ [] ∧ root ≠ ('R' :: 'o' :: 'o' :: 't' :: [])
        then [Effect.timerStart] else []) := by
  refine ⟨start_or_reset_live s now root h, execute_live s now root h, ?_,
    stop_timer_live s h, start_or_reset_effects s now root⟩
  rw [← execute_eq12]
  exact execute_live s now root h

/-- C8 (witness): the invariant-preservation statement at a concrete
state with one live timer. -/
theorem claim8_witness :
    ((start_or_reset_timer ⟨4800, 300, 0, some true, 0⟩ 9
        ("/a/b.nk".toList)).1.orphanLive = 0 ∧
      liveCount (start_or_reset_timer ⟨4800, 300, 0, some true, 0⟩ 9
        ("/a/b.nk".toList)).1 ≤ 1) ∧
    ((execute_version_up ⟨4800, 300, 0, some true, 0⟩ 9
        ("/a/b.nk".toList)).1.orphanLive = 0 ∧
      liveCount (execute_version_up ⟨4800, 300, 0, some true, 0⟩ 9
        ("/a/b.nk".toList)).1 ≤ 1) ∧
    ((execute_version_up12 ⟨4800, 300, 0, some true, 0⟩ 9
        ("/a/b.nk".toList)).1.orphanLive = 0 ∧
      liveCount (execute_version_up12 ⟨4800, 300, 0, some true, 0⟩ 9
        ("/a/b.nk".toList)).1 ≤ 1) ∧
    ((stop_timer ⟨4800, 300, 0, some true, 0⟩).1.orphanLive = 0 ∧
      liveCount (stop_timer ⟨4800, 300, 0, some true, 0⟩).1 ≤ 1) ∧
    (start_or_reset_timer ⟨4800, 300, 0, some true, 0⟩ 9
        ("/a/b.nk".toList)).2 =
      (if (some true : Option Bool).isSome then [Effect.timerCancel] else []) ++
      (if ("/a/b.nk".toList) ≠ [] ∧ ("/a/b.nk".toList) ≠
          ('R' :: 'o' :: 'o' :: 't' :: []) then [Effect.timerStart] else []) :=
  claim8_theorem ⟨4800, 300, 0, some true, 0⟩ 9 ("/a/b.nk".toList) rfl

/-- C9: when the basename carries more than one `.vNNN` token before the
final `.nk` (e.g. `a.v001.v002.nk`), only the token immediately preceding
the `.nk` extension is incremented; every earlier token stays in the name
part unchanged (and the directory is untouched). -/
theorem claim9_theorem (p X ds1 ds2 : List Char)
    (hb : basename p =
      X ++ '.' :: 'v' :: (ds1 ++ '.' :: 'v' :: (ds2 ++ ['.', 'n', 'k'])))
    (hnl : '\n' ∉ X) (hds1 : ds1 ≠ []) (hdig1 : ds1.all isDig = true)
    (hds2 : ds2 ≠ []) (hdig2 : ds2.all isDig = true) :
    basename (get_next_version_path p) =
      X ++ '.' :: 'v' :: (ds1 ++ '.' :: 'v' ::
        (fmt03 (parseDigits ds2 + 1) ++ ['.', 'n', 'k'])) ∧
    dirname (get_next_version_path p) = dirname p := by
  have hb' : basename p = (X ++ '.' :: 'v' :: ds1) ++ '.' :: 'v' ::
      (ds2 ++ ['.', 'n', 'k']) := by
    rw [hb]
    simp
  have hXnl : '\n' ∉ (X ++ '.' :: 'v' :: ds1) := by
    intro hx
    rcases List.mem_append.mp hx with hx | hx
    · exact hnl hx
    · rcases List.mem_cons.mp hx with hx | hx
      · exact absurd hx.symm (by decide)
      · rcases List.mem_cons.mp hx with hx | hx
        · exact absurd hx.symm (by decide)
        · exact isDig_ne_newline (List.all_eq_true.mp hdig1 _ hx) rfl
  refine ⟨?_, dirname_next p⟩
  rw [basename_next, hb', nextBaseName_match (by simp) hXnl (Or.inl rfl)
    (Or.inl rfl) (Or.inl rfl) hds2 hdig2]
  simp

/-- C9 (witness): `/x/a.v001.v002.nk` goes to `a.v001.v003.nk`. -/
theorem claim9_witness :
    basename (get_next_version_path ("/x/a.v001.v002.nk".toList)) =
      ("a".toList) ++ '.' :: 'v' :: (("001".toList) ++ '.' :: 'v' ::
        (fmt03 (parseDigits ("002".toList) + 1) ++ ['.', 'n', 'k'])) ∧
    dirname (get_next_version_path ("/x/a.v001.v002.nk".toList)) =
      dirname ("/x/a.v001.v002.nk".toList) :=
  claim9_theorem ("/x/a.v001.v002.nk".toList) ("a".toList) ("001".toList)
    ("002".toList) (by decide) (by decide) (by decide) (by decide)
    (by decide) (by decide)

/-- C10: for every input path, `_get_next_version_path` leaves the
directory component unchanged; only the basename changes. -/
theorem claim10_theorem (p : List Char) :
    dirname (get_next_version_path p) = dirname p :=
  dirname_next p
